import Mathlib

/-!
Shallow embedding of the QtMips cache replacement-policy engine
(`src/machine/memory/cache/cache_policy.cpp`) and of the simulator
exception taxonomy (`src/machine/simulator_exception.h`), with proofs of
the properties stated about them.

Conventions of the embedding:
* C++ `std::vector` becomes `List`; `vec.at(i)` becomes a lookup `l[i]?`
  where the `none` case is the thrown `std::out_of_range`.
* Fallible methods return `Except ThrownFault _`: `.error .stdOutOfRange`
  is an escaping `std::out_of_range`, `.error .sanity` is a
  `SimulatorExceptionSanity` thrown via the `SANITY_EXCEPTION` macro
  (inside `try { ... } catch (std::out_of_range &)` blocks the C++ code
  converts the former into the latter).
* `uint32_t` cells hold `Nat` values taken modulo `2 ^ 32` wherever the
  C++ arithmetic can overflow.
* The process-wide C `rand` generator is modelled as an explicit state
  (`Nat`) threaded through the Random policy together with an arbitrary
  deterministic next-state function, since the C standard does not fix
  the algorithm of `std::rand`.
-/

namespace QtMips

/-- Faults that can escape the policy methods: an uncaught C++
`std::out_of_range` from `std::vector::at`, or a
`SimulatorExceptionSanity` raised through `SANITY_EXCEPTION`. -/
inductive ThrownFault where
  | stdOutOfRange
  | sanity
deriving DecidableEq

/-- Value of a `uint32_t` cell: arithmetic is done modulo `UINT32_MOD`. -/
def UINT32_MOD : Nat := 2 ^ 32

/-! ## Exception taxonomy (`simulator_exception.h`)

The `SIMULATOR_EXCEPTIONS` X-macro expands, for each `EXCEPTION(NAME,
PARENT)` entry, to `class SimulatorExceptionNAME : public
SimulatorExceptionPARENT`; an empty `PARENT` makes the base class the
root `SimulatorException`. -/

/-- One class of the generated `SimulatorException` hierarchy. `base` is
the root `SimulatorException` class itself. -/
inductive ExcClass where
  | base
  | input
  | runtime
  | unsupportedInstruction
  | unsupportedAluOperation
  | overflow
  | unalignedJump
  | unknownMemoryControl
  | outOfMemoryAccess
  | sanity
  | syscallUnknown
deriving DecidableEq

/-- Direct base class of each generated exception class, read off the
`SIMULATOR_EXCEPTIONS` macro list: `EXCEPTION(Input, )`,
`EXCEPTION(Runtime, )`, seven entries with parent `Runtime`,
`EXCEPTION(Sanity, )`. -/
def ExcClass.parent : ExcClass → Option ExcClass
  | .base => none
  | .input => some .base
  | .runtime => some .base
  | .unsupportedInstruction => some .runtime
  | .unsupportedAluOperation => some .runtime
  | .overflow => some .runtime
  | .unalignedJump => some .runtime
  | .unknownMemoryControl => some .runtime
  | .outOfMemoryAccess => some .runtime
  | .sanity => some .base
  | .syscallUnknown => some .runtime

/-- Walk up the parent chain at most `fuel` steps looking for `d`. -/
def ExcClass.isAAux : Nat → ExcClass → ExcClass → Bool
  | 0, _, _ => false
  | fuel + 1, c, d =>
    c = d ||
      match c.parent with
      | none => false
      | some p => ExcClass.isAAux fuel p d

/-- `c.isA d`: a thrown object of class `c` is caught by a handler for
class `d` (C++ public inheritance, reflexive-transitive closure of the
direct-base relation). Eleven classes exist, so fuel `11` covers every
parent chain. -/
def ExcClass.isA (c d : ExcClass) : Bool :=
  ExcClass.isAAux 11 c d

/-- The seven runtime fault kinds named by the specification. -/
def runtimeLeaves : List ExcClass :=
  [.unsupportedInstruction, .unsupportedAluOperation, .overflow,
   .unalignedJump, .unknownMemoryControl, .outOfMemoryAccess,
   .syscallUnknown]

/-- All classes of the hierarchy, for quantification over children. -/
def allExcClasses : List ExcClass :=
  [.base, .input, .runtime, .unsupportedInstruction,
   .unsupportedAluOperation, .overflow, .unalignedJump,
   .unknownMemoryControl, .outOfMemoryAccess, .sanity, .syscallUnknown]

/-! ## Cache configuration (external collaborator, as consumed by the
factory `CachePolicy::get_policy_instance`). -/

/-- `CacheConfig::ReplacementPolicy` selector values. -/
inductive ReplacementPolicy where
  | RP_RAND
  | RP_LRU
  | RP_LFU
deriving DecidableEq

/-- The slice of `CacheConfig` the factory reads: `enabled()`,
`replacement_policy()`, `associativity()`, `set_count()`. -/
structure CacheConfig where
  enabled : Bool
  replacement_policy : ReplacementPolicy
  associativity : Nat
  set_count : Nat

/-! ## LRU policy (`CachePolicyLRU`) -/

/-- `CachePolicyLRU`: per-row ordered sequences of way indices
(`stats : vector<vector<uint32_t>>`), plus the stored associativity. -/
structure CachePolicyLRU where
  associativity : Nat
  stats : List (List Nat)
deriving DecidableEq

/-- `CachePolicyLRU::CachePolicyLRU(associativity, set_count)`: every
row is initialised to `0, 1, ..., associativity - 1` by
`row.push_back(i)`, which narrows the `size_t` loop counter into a
`uint32_t` cell (hence the modulo, vacuous for any realisable
associativity). -/
def CachePolicyLRU.construct (associativity set_count : Nat) : CachePolicyLRU :=
  { associativity := associativity
    stats := List.replicate set_count
      ((List.range associativity).map (· % UINT32_MOD)) }

/-- The `is_valid` branch of `CachePolicyLRU::update_stats`: the do-while
loop `swap(row_stats.at(i), next_way); i--` running `i` from
`associativity - 1` downwards until `next_way == way`. The fuel `k` is
`i + 1`, so `k = 0` is the access `row_stats.at(-1)`, which throws. -/
def lruBackGo (way : Nat) : List Nat → Nat → Nat → Except ThrownFault (List Nat)
  | _, _, 0 => .error .stdOutOfRange
  | rs, nw, k + 1 =>
    if h : k < rs.length then
      if rs[k] = way then .ok (rs.set k nw)
      else lruBackGo way (rs.set k nw) rs[k] k
    else .error .stdOutOfRange

/-- The `!is_valid` branch of `CachePolicyLRU::update_stats`: the
do-while loop `swap(row_stats.at(i), next_way); i++` running `i` upwards
from `0` until `next_way == way`; `row_stats.at(i)` throws once `i`
reaches the row size. -/
def lruFrontGo (way : Nat) (rs : List Nat) (nw i : Nat) : Except ThrownFault (List Nat) :=
  if h : i < rs.length then
    if rs[i] = way then .ok (rs.set i nw)
    else lruFrontGo way (rs.set i nw) rs[i] (i + 1)
  else .error .stdOutOfRange
termination_by rs.length - i
decreasing_by
  simp only [List.length_set]
  omega

/-- `CachePolicyLRU::update_stats(way, row, is_valid)`. The whole body
sits in a `try` block whose `catch (std::out_of_range &)` rethrows
`SANITY_EXCEPTION(...)`, so every out-of-range access surfaces as a
Sanity fault. `next_way` is a `uint32_t` initialised from the `size_t`
`way`, hence the modulo on its initial value. -/
def CachePolicyLRU.update_stats (p : CachePolicyLRU) (way row : Nat) (is_valid : Bool) :
    Except ThrownFault CachePolicyLRU :=
  let r : Except ThrownFault (List Nat) :=
    match p.stats[row]? with
    | none => .error .stdOutOfRange
    | some row_stats =>
      if is_valid then lruBackGo way row_stats (way % UINT32_MOD) p.associativity
      else lruFrontGo way row_stats (way % UINT32_MOD) 0
  match r with
  | .error _ => .error .sanity
  | .ok rs => .ok { p with stats := p.stats.set row rs }

/-- `CachePolicyLRU::select_way_to_evict(row)`:
`return stats.at(row).at(0);` with no surrounding `try`, so an
out-of-range `row` (or an empty row) escapes as `std::out_of_range`. -/
def CachePolicyLRU.select_way_to_evict (p : CachePolicyLRU) (row : Nat) :
    Except ThrownFault Nat :=
  match p.stats[row]? with
  | none => .error .stdOutOfRange
  | some rs =>
    match rs[0]? with
    | none => .error .stdOutOfRange
    | some w => .ok w

/-! ## LFU policy (`CachePolicyLFU`) -/

/-- `CachePolicyLFU`: per-row, per-way `uint32_t` hit counters. -/
structure CachePolicyLFU where
  stats : List (List Nat)
deriving DecidableEq

/-- `CachePolicyLFU::CachePolicyLFU(associativity, set_count)`:
`stats.resize(set_count, vector<uint32_t>(associativity, 0))`. -/
def CachePolicyLFU.construct (associativity set_count : Nat) : CachePolicyLFU :=
  { stats := List.replicate set_count (List.replicate associativity 0) }

/-- `CachePolicyLFU::update_stats(way, row, is_valid)`:
`auto &stat_item = stats.at(row).at(way)` (no `try`, so out-of-range
escapes as `std::out_of_range`), then `stat_item += 1` on a `uint32_t`
(wrapping) when valid, else `stat_item = 0`. -/
def CachePolicyLFU.update_stats (p : CachePolicyLFU) (way row : Nat) (is_valid : Bool) :
    Except ThrownFault CachePolicyLFU :=
  match p.stats[row]? with
  | none => .error .stdOutOfRange
  | some rs =>
    match rs[way]? with
    | none => .error .stdOutOfRange
    | some c =>
      let c' := if is_valid then (c + 1) % UINT32_MOD else 0
      .ok { stats := p.stats.set row (rs.set way c') }

/-- The scanning loop of `CachePolicyLFU::select_way_to_evict`: walk the
row left to right carrying `(lowest, index)`; stop at the first zero
counter, otherwise remember the first strictly smaller counter. `i` is
the absolute index of the head of the remaining suffix. -/
def lfuScanGo : List Nat → Nat → Nat → Nat → Nat
  | [], _, _, index => index
  | c :: rest, i, lowest, index =>
    if c = 0 then i
    else if lowest > c then lfuScanGo rest (i + 1) c i
    else lfuScanGo rest (i + 1) lowest index

/-- `CachePolicyLFU::select_way_to_evict(row)`. The body sits in a `try`
whose catch rethrows `SANITY_EXCEPTION(...)`: `stats.at(row)` and
`row_stats.at(0)` (the initialisation of `lowest`) can throw, after
which the loop only touches valid indices. -/
def CachePolicyLFU.select_way_to_evict (p : CachePolicyLFU) (row : Nat) :
    Except ThrownFault Nat :=
  match p.stats[row]? with
  | none => .error .sanity
  | some rs =>
    match rs[0]? with
    | none => .error .sanity
    | some c0 => .ok (lfuScanGo rs 0 c0 0)

/-! ## Random policy (`CachePolicyRAND`)

The C++ class keeps no per-row state; it calls `std::srand(1)` in its
constructor and `std::rand() % associativity` in
`select_way_to_evict`. The process-wide generator is modelled as a `Nat`
state, an arbitrary step function `rand : Nat → Nat × Nat` (value, next
state), and seed state `1` written by `srand(1)`. -/

/-- `CachePolicyRAND`: only the stored associativity. -/
structure CachePolicyRAND where
  associativity : Nat
deriving DecidableEq

/-- `CachePolicyRAND::CachePolicyRAND(associativity)`: stores the
associativity and executes `std::srand(1)`, i.e. replaces whatever the
process-wide generator state `g` was by the fixed seed `1`. -/
def CachePolicyRAND.construct (associativity : Nat) (_g : Nat) : CachePolicyRAND × Nat :=
  (CachePolicyRAND.mk associativity, 1)

/-- `CachePolicyRAND::update_stats`: all three arguments `UNUSED`, body
is a NOP; the generator state is untouched and nothing is thrown. -/
def CachePolicyRAND.update_stats (_p : CachePolicyRAND) (_way _row : Nat)
    (_is_valid : Bool) (g : Nat) : Except ThrownFault Nat :=
  .ok g

/-- `CachePolicyRAND::select_way_to_evict(row)`: `row` is `UNUSED`;
returns `std::rand() % associativity` and advances the generator. -/
def CachePolicyRAND.select_way_to_evict (rand : Nat → Nat × Nat)
    (p : CachePolicyRAND) (_row : Nat) (g : Nat) : Nat × Nat :=
  ((rand g).1 % p.associativity, (rand g).2)

/-! ## Factory (`CachePolicy::get_policy_instance`) -/

/-- The closed set of policy variants the factory can produce. -/
inductive CachePolicy where
  | rand (p : CachePolicyRAND)
  | lru (p : CachePolicyLRU)
  | lfu (p : CachePolicyLFU)

/-- `CachePolicy::get_policy_instance(config)`: `nullptr` when the cache
is disabled, otherwise one instance of the variant selected by
`replacement_policy()`. Constructing the Random variant runs
`std::srand(1)`, so the process-wide generator state is threaded through
and comes back re-seeded in that case. -/
def CachePolicy.get_policy_instance (config : CacheConfig) (g : Nat) :
    Option CachePolicy × Nat :=
  if config.enabled then
    match config.replacement_policy with
    | .RP_RAND =>
      let r := CachePolicyRAND.construct config.associativity g
      (some (.rand r.1), r.2)
    | .RP_LRU =>
      (some (.lru (CachePolicyLRU.construct config.associativity config.set_count)), g)
    | .RP_LFU =>
      (some (.lfu (CachePolicyLFU.construct config.associativity config.set_count)), g)
  else
    (none, g)

/-! ## Derived execution forms used by the statements -/

/-- Run a sequence of `update_stats(way, row, is_valid)` calls against an
LRU policy, stopping at the first thrown fault (each call either
completes or unwinds). -/
def lruApplyOps (p : CachePolicyLRU) :
    List (Nat × Nat × Bool) → Except ThrownFault CachePolicyLRU
  | [] => .ok p
  | (way, row, b) :: ops =>
    match p.update_stats way row b with
    | .error e => .error e
    | .ok p' => lruApplyOps p' ops

/-- Eviction sequence of a Random policy: one `select_way_to_evict` call
per row in `rows`, threading the process-wide generator state. -/
def randEvictSeq (rand : Nat → Nat × Nat) (p : CachePolicyRAND) (g : Nat) :
    List Nat → List Nat
  | [] => []
  | row :: rows =>
    let r := p.select_way_to_evict rand row g
    r.1 :: randEvictSeq rand p r.2 rows

/-- The LRU structural invariant stated by the specification: every
per-row order sequence is a permutation of `[0, associativity)`. -/
def CachePolicyLRU.Inv (p : CachePolicyLRU) : Prop :=
  ∀ rs ∈ p.stats, rs.Perm (List.range p.associativity)

instance : DecidablePred CachePolicyLRU.Inv := fun p =>
  decidable_of_iff (∀ rs ∈ p.stats, rs.Perm (List.range p.associativity))
    Iff.rfl

instance {ε α : Type _} [DecidableEq ε] [DecidableEq α] :
    DecidableEq (Except ε α) := fun a b =>
  match a, b with
  | .ok x, .ok y =>
    if h : x = y then isTrue (h ▸ rfl)
    else isFalse (fun hc => h (Except.ok.inj hc))
  | .ok _, .error _ => isFalse (fun hc => Except.noConfusion hc)
  | .error _, .ok _ => isFalse (fun hc => Except.noConfusion hc)
  | .error e, .error f =>
    if h : e = f then isTrue (h ▸ rfl)
    else isFalse (fun hc => h (Except.error.inj hc))

/-! ## List helper lemmas -/

theorem getElem?_append_length (xs zs : List Nat) (b : Nat) :
    (xs ++ b :: zs)[xs.length]? = some b := by
  rw [List.getElem?_append_right (le_refl _)]
  simp

theorem set_append_length (xs zs : List Nat) (b a : Nat) :
    (xs ++ b :: zs).set xs.length a = xs ++ a :: zs := by
  induction xs with
  | nil => rfl
  | cons x xs ih => simp [ih]

theorem range_map_mod (assoc : Nat) (hassoc : assoc ≤ UINT32_MOD) :
    (List.range assoc).map (· % UINT32_MOD) = List.range assoc := by
  rw [List.map_eq_iff]
  intro i
  rcases Nat.lt_or_ge i assoc with hlt | hge
  · rw [List.getElem?_eq_getElem (by simpa using hlt), List.getElem_range]
    have : i < UINT32_MOD := lt_of_lt_of_le hlt hassoc
    simp [Nat.mod_eq_of_lt this]
  · rw [List.getElem?_eq_none (by simpa using hge)]
    rfl

/-! ## LFU scan-loop characterisation -/

/-- Invariant-carrying specification of `lfuScanGo` relative to the full
row `L`: called on the suffix of `L` at absolute position `i` with the
running minimum `lowest = L.getD index 0` of the zero-free prefix, it
returns the least index of a minimal counter of `L`. -/
theorem lfuScanGo_spec (L : List Nat) :
    ∀ (rest : List Nat) (i lowest index : Nat),
      rest = L.drop i →
      index ≤ i → index < L.length →
      lowest = L.getD index 0 →
      (∀ k, k < i → lowest ≤ L.getD k 0) →
      (∀ k, k < i → L.getD k 0 ≠ 0) →
      (∀ k, k < i → L.getD k 0 = lowest → index ≤ k) →
      lfuScanGo rest i lowest index < L.length ∧
      (∀ k, k < L.length →
        L.getD (lfuScanGo rest i lowest index) 0 ≤ L.getD k 0) ∧
      (∀ k, k < L.length →
        L.getD k 0 = L.getD (lfuScanGo rest i lowest index) 0 →
        lfuScanGo rest i lowest index ≤ k) := by
  intro rest
  induction rest with
  | nil =>
    intro i lowest index hdrop hile hilen hlow hmin hnz htie
    have hlen : L.length ≤ i := List.drop_eq_nil_iff.mp hdrop.symm
    simp only [lfuScanGo]
    refine ⟨hilen, ?_, ?_⟩
    · intro k hk
      rw [← hlow]
      exact hmin k (lt_of_lt_of_le hk hlen)
    · intro k hk he
      exact htie k (lt_of_lt_of_le hk hlen) (by rw [he, hlow])
  | cons c rest ih =>
    intro i lowest index hdrop hile hilen hlow hmin hnz htie
    have hgetc : L[i]? = some c := by
      have h0 := List.getElem?_drop L i 0
      rw [← hdrop] at h0
      simpa using h0.symm
    have hiL : i < L.length := (List.getElem?_eq_some.mp hgetc).1
    have hgetD : L.getD i 0 = c := by
      rw [List.getD_eq_getElem?_getD, hgetc]
      rfl
    have hrest : rest = L.drop (i + 1) := by
      rw [← List.tail_drop, ← hdrop, List.tail_cons]
    simp only [lfuScanGo]
    by_cases hc : c = 0
    · rw [if_pos hc]
      refine ⟨hiL, ?_, ?_⟩
      · intro k hk
        rw [hgetD, hc]
        exact Nat.zero_le _
      · intro k hk he
        by_contra hki
        exact hnz k (by omega) (by rw [he, hgetD, hc])
    · rw [if_neg hc]
      by_cases hlt : lowest > c
      · rw [if_pos hlt]
        refine ih (i + 1) c i hrest (Nat.le_succ i) hiL hgetD.symm ?_ ?_ ?_
        · intro k hk
          rcases Nat.lt_or_ge k i with hki | hki
          · exact le_trans (le_of_lt hlt) (hmin k hki)
          · have : k = i := by omega
            rw [this, hgetD]
        · intro k hk
          rcases Nat.lt_or_ge k i with hki | hki
          · exact hnz k hki
          · have : k = i := by omega
            rw [this, hgetD]
            exact hc
        · intro k hk he
          rcases Nat.lt_or_ge k i with hki | hki
          · exact absurd he (by have := hmin k hki; omega)
          · omega
      · rw [if_neg hlt]
        refine ih (i + 1) lowest index hrest (le_trans hile (Nat.le_succ i))
          hilen hlow ?_ ?_ ?_
        · intro k hk
          rcases Nat.lt_or_ge k i with hki | hki
          · exact hmin k hki
          · have : k = i := by omega
            rw [this, hgetD]
            omega
        · intro k hk
          rcases Nat.lt_or_ge k i with hki | hki
          · exact hnz k hki
          · have : k = i := by omega
            rw [this, hgetD]
            exact hc
        · intro k hk he
          rcases Nat.lt_or_ge k i with hki | hki
          · exact htie k hki he
          · omega

/-- Specification of `CachePolicyLFU::select_way_to_evict` on an
in-range, nonempty row: it returns the least index holding a minimal
counter value. -/
theorem lfu_select_spec (p : CachePolicyLFU) (row : Nat) (rs : List Nat)
    (hrow : p.stats[row]? = some rs) (hne : 0 < rs.length) :
    ∃ j, p.select_way_to_evict row = .ok j ∧ j < rs.length ∧
      (∀ k, k < rs.length → rs.getD j 0 ≤ rs.getD k 0) ∧
      (∀ k, k < rs.length → rs.getD k 0 = rs.getD j 0 → j ≤ k) := by
  have hc0 : rs[0]? = some rs[0] := List.getElem?_eq_getElem hne
  refine ⟨lfuScanGo rs 0 rs[0] 0, ?_, ?_⟩
  · simp only [CachePolicyLFU.select_way_to_evict, hrow, hc0]
  · refine lfuScanGo_spec rs rs 0 rs[0] 0 (by simp) (le_refl 0) hne ?_
      (by omega) (by omega) (by omega)
    rw [List.getD_eq_getElem?_getD, hc0]
    rfl

/-! ## LRU reorder-loop characterisation -/

theorem getElem_append_length (xs zs : List Nat) (b : Nat)
    (h : xs.length < (xs ++ b :: zs).length) :
    (xs ++ b :: zs)[xs.length] = b := by
  have h1 := getElem?_append_length xs zs b
  rw [List.getElem?_eq_getElem h] at h1
  exact Option.some.inj h1

/-- The backwards pass of `CachePolicyLRU::update_stats` on a row that
contains `way` exactly within the scanned region: it removes the
(rightmost) occurrence of `way`, shifts the elements that followed it
down by one slot, and writes `nw` at the last scanned position. -/
theorem lruBackGo_found (way : Nat) :
    ∀ (ys : List Nat), way ∉ ys → ∀ (xs zs : List Nat) (nw : Nat),
      lruBackGo way (xs ++ way :: (ys ++ zs)) nw (xs.length + ys.length + 1) =
        .ok (xs ++ (ys ++ nw :: zs)) := by
  intro ys
  induction ys using List.reverseRecOn with
  | nil =>
    intro _ xs zs nw
    simp only [List.length_nil, Nat.add_zero, List.nil_append]
    have hlen : xs.length < (xs ++ way :: zs).length := by
      simp
    rw [show xs.length + 1 = xs.length + 1 from rfl]
    simp only [lruBackGo]
    rw [dif_pos hlen, getElem_append_length xs zs way hlen, if_pos rfl,
      set_append_length]
  | append_singleton ys y ih =>
    intro hway xs zs nw
    have hyne : y ≠ way := by
      intro he
      exact hway (by simp [he])
    have hway' : way ∉ ys := fun hm => hway (by simp [hm])
    have hl : xs ++ way :: ((ys ++ [y]) ++ zs) = (xs ++ way :: ys) ++ y :: zs := by
      simp
    have hk : xs.length + (ys ++ [y]).length + 1 = (xs ++ way :: ys).length + 1 := by
      simp
    rw [hl, hk]
    have hlen : (xs ++ way :: ys).length < ((xs ++ way :: ys) ++ y :: zs).length := by
      simp
    simp only [lruBackGo]
    rw [dif_pos hlen, getElem_append_length _ _ y hlen, if_neg hyne,
      set_append_length]
    have hl2 : (xs ++ way :: ys) ++ nw :: zs = xs ++ way :: (ys ++ nw :: zs) := by
      simp
    have hk2 : (xs ++ way :: ys).length = xs.length + ys.length + 1 := by
      simp
      omega
    rw [hl2, hk2, ih hway' xs (nw :: zs) y]
    simp

/-- The backwards pass when `way` occurs nowhere in the scanned region:
the loop underruns the row and the `.at(-1)` access throws. -/
theorem lruBackGo_notFound (way : Nat) :
    ∀ (k : Nat) (rs : List Nat) (nw : Nat),
      (∀ j, j < k → rs[j]? ≠ some way) →
      lruBackGo way rs nw k = .error .stdOutOfRange := by
  intro k
  induction k with
  | zero =>
    intro rs nw h
    rfl
  | succ k ih =>
    intro rs nw h
    simp only [lruBackGo]
    by_cases hk : k < rs.length
    · rw [dif_pos hk]
      have hv : ¬(rs[k] = way) := fun he =>
        h k (Nat.lt_succ_self k) (by rw [List.getElem?_eq_getElem hk, he])
      rw [if_neg hv]
      refine ih _ _ (fun j hj => ?_)
      rw [List.getElem?_set_ne (by omega)]
      exact h j (by omega)
    · rw [dif_neg hk]

/-- The forwards pass of `CachePolicyLRU::update_stats` on a row whose
scanned region starts with a `way`-free block followed by `way`: it
writes `nw` at the start, shifts the block up by one slot, and drops the
occurrence of `way`. -/
theorem lruFrontGo_found (way : Nat) :
    ∀ (xs : List Nat), way ∉ xs → ∀ (zs ys : List Nat) (nw : Nat),
      lruFrontGo way (zs ++ (xs ++ way :: ys)) nw zs.length =
        .ok (zs ++ nw :: (xs ++ ys)) := by
  intro xs
  induction xs with
  | nil =>
    intro _ zs ys nw
    have hlen : zs.length < (zs ++ way :: ys).length := by
      simp
    rw [List.nil_append, lruFrontGo, dif_pos hlen,
      if_pos (getElem_append_length zs ys way hlen), set_append_length]
    simp
  | cons x xs ih =>
    intro hway zs ys nw
    have hxne : x ≠ way := fun he => hway (by simp [he])
    have hway' : way ∉ xs := fun hm => hway (by simp [hm])
    have hl : zs ++ ((x :: xs) ++ way :: ys) = zs ++ x :: (xs ++ way :: ys) := by
      simp
    have hlen : zs.length < (zs ++ x :: (xs ++ way :: ys)).length := by
      simp
    rw [hl, lruFrontGo, dif_pos hlen,
      getElem_append_length zs (xs ++ way :: ys) x hlen, if_neg hxne,
      set_append_length]
    have hl2 : zs ++ nw :: (xs ++ way :: ys) = (zs ++ [nw]) ++ (xs ++ way :: ys) := by
      simp
    have hk2 : zs.length + 1 = (zs ++ [nw]).length := by
      simp
    rw [hl2, hk2, ih hway' (zs ++ [nw]) ys x]
    simp

/-- The forwards pass when `way` occurs nowhere at or after position
`i`: the loop overruns the row and `.at(size)` throws. -/
theorem lruFrontGo_notFound (way : Nat) :
    ∀ (n : Nat) (rs : List Nat) (nw i : Nat), n = rs.length - i →
      (∀ j, i ≤ j → rs[j]? ≠ some way) →
      lruFrontGo way rs nw i = .error .stdOutOfRange := by
  intro n
  induction n with
  | zero =>
    intro rs nw i hn h
    rw [lruFrontGo, dif_neg (by omega)]
  | succ n ih =>
    intro rs nw i hn h
    rw [lruFrontGo]
    by_cases hi : i < rs.length
    · rw [dif_pos hi]
      have hv : ¬(rs[i] = way) := fun he =>
        h i (le_refl i) (by rw [List.getElem?_eq_getElem hi, he])
      rw [if_neg hv]
      refine ih _ _ _ (by simp [List.length_set]; omega) (fun j hj => ?_)
      rw [List.getElem?_set_ne (by omega)]
      exact h j (by omega)
    · rw [dif_neg hi]

/-! ## Derived facts about `CachePolicyLRU::update_stats` and
`select_way_to_evict` -/

/-- A hit (`is_valid = true`) on a row decomposed around the unique
occurrence of `way` moves `way` to the back and shifts the elements
after it down by one; everything before `way` is untouched. -/
theorem lru_update_stats_true (p : CachePolicyLRU) (way row : Nat) (xs ys : List Nat)
    (hrow : p.stats[row]? = some (xs ++ way :: ys)) (hys : way ∉ ys)
    (hlen : xs.length + ys.length + 1 = p.associativity) (hmod : way < UINT32_MOD) :
    p.update_stats way row true =
      .ok ⟨p.associativity, p.stats.set row (xs ++ (ys ++ [way]))⟩ := by
  simp only [CachePolicyLRU.update_stats, hrow]
  rw [if_pos trivial, Nat.mod_eq_of_lt hmod,
    show xs ++ way :: ys = xs ++ way :: (ys ++ []) by simp, ← hlen,
    lruBackGo_found way ys hys xs [] way]

/-- An invalidation (`is_valid = false`) on a row decomposed around the
unique occurrence of `way` moves `way` to the front and shifts the
elements before it up by one; everything after `way` is untouched. -/
theorem lru_update_stats_false (p : CachePolicyLRU) (way row : Nat) (xs ys : List Nat)
    (hrow : p.stats[row]? = some (xs ++ way :: ys)) (hxs : way ∉ xs)
    (hmod : way < UINT32_MOD) :
    p.update_stats way row false =
      .ok ⟨p.associativity, p.stats.set row (way :: (xs ++ ys))⟩ := by
  simp only [CachePolicyLRU.update_stats, hrow]
  rw [if_neg (by simp), Nat.mod_eq_of_lt hmod,
    show xs ++ way :: ys = [] ++ (xs ++ way :: ys) by simp,
    show (0 : Nat) = ([] : List Nat).length by simp,
    lruFrontGo_found way xs hxs [] ys way]
  simp

/-- `CachePolicyLRU::update_stats` with `row` out of range: `stats.at(row)`
throws inside the `try`, which rethrows as a Sanity fault. -/
theorem lru_update_stats_row_oor (p : CachePolicyLRU) (way row : Nat) (b : Bool)
    (hrow : p.stats[row]? = none) :
    p.update_stats way row b = .error .sanity := by
  simp only [CachePolicyLRU.update_stats, hrow]

/-- `CachePolicyLRU::update_stats` with an in-range row that does not
contain `way` at all: the reorder pass runs off the end of the row,
`vector::at` throws, and the catch rethrows a Sanity fault. -/
theorem lru_update_stats_way_missing (p : CachePolicyLRU) (way row : Nat) (b : Bool)
    (rs : List Nat) (hrow : p.stats[row]? = some rs) (hmem : way ∉ rs) :
    p.update_stats way row b = .error .sanity := by
  simp only [CachePolicyLRU.update_stats, hrow]
  have hno : ∀ j : Nat, rs[j]? ≠ some way := by
    intro j he
    exact hmem (List.getElem?_mem he)
  cases b with
  | true =>
    rw [if_pos rfl, lruBackGo_notFound way p.associativity rs _
      (fun j _ => hno j)]
  | false =>
    rw [if_neg (by simp), lruFrontGo_notFound way (rs.length - 0) rs _ 0 rfl
      (fun j _ => hno j)]

/-- `CachePolicyLRU::select_way_to_evict` on an in-range, nonempty row
returns its front element. -/
theorem lru_select_front (p : CachePolicyLRU) (row : Nat) (rs : List Nat) (v : Nat)
    (hrow : p.stats[row]? = some rs) (h0 : rs[0]? = some v) :
    p.select_way_to_evict row = .ok v := by
  simp only [CachePolicyLRU.select_way_to_evict, hrow, h0]

/-- `CachePolicyLRU::select_way_to_evict` with `row` out of range:
`stats.at(row)` throws `std::out_of_range` with no handler in scope. -/
theorem lru_select_row_oor (p : CachePolicyLRU) (row : Nat)
    (hrow : p.stats[row]? = none) :
    p.select_way_to_evict row = .error .stdOutOfRange := by
  simp only [CachePolicyLRU.select_way_to_evict, hrow]

/-- Any row that is a permutation of `[0, associativity)` splits around
its unique occurrence of an in-range `way`. -/
theorem perm_decomp (rs : List Nat) (assoc way : Nat)
    (hperm : rs.Perm (List.range assoc)) (hway : way < assoc) :
    ∃ xs ys, rs = xs ++ way :: ys ∧ way ∉ xs ∧ way ∉ ys := by
  have hmem : way ∈ rs := hperm.mem_iff.mpr (List.mem_range.mpr hway)
  obtain ⟨xs, ys, hsplit⟩ := List.append_of_mem hmem
  have hnd : rs.Nodup := hperm.nodup_iff.mpr (List.nodup_range assoc)
  rw [hsplit] at hnd
  rw [List.nodup_append] at hnd
  refine ⟨xs, ys, hsplit, ?_, ?_⟩
  · intro hin
    exact hnd.2.2 hin (by simp)
  · exact (List.nodup_cons.mp hnd.2.1).1

/-- One in-range `update_stats` call on an LRU state whose rows are
permutations of `[0, associativity)` succeeds and rewrites exactly the
addressed row to another permutation of `[0, associativity)`. -/
theorem lru_update_stats_ok (p : CachePolicyLRU) (way row : Nat) (b : Bool)
    (hInv : p.Inv) (hassoc : p.associativity ≤ UINT32_MOD)
    (hway : way < p.associativity) (hrow : row < p.stats.length) :
    ∃ rs', p.update_stats way row b = .ok ⟨p.associativity, p.stats.set row rs'⟩ ∧
      rs'.Perm (List.range p.associativity) := by
  have hget : p.stats[row]? = some p.stats[row] := List.getElem?_eq_getElem hrow
  have hperm : p.stats[row].Perm (List.range p.associativity) :=
    hInv _ (List.getElem_mem hrow)
  obtain ⟨xs, ys, hsplit, hxs, hys⟩ := perm_decomp _ _ _ hperm hway
  have hmod : way < UINT32_MOD := lt_of_lt_of_le hway hassoc
  have hlen : xs.length + ys.length + 1 = p.associativity := by
    have h1 := hperm.length_eq
    rw [hsplit] at h1
    simp at h1
    omega
  rw [hsplit] at hget
  cases b with
  | true =>
    refine ⟨xs ++ (ys ++ [way]),
      lru_update_stats_true p way row xs ys hget hys hlen hmod, ?_⟩
    refine List.Perm.trans ?_ hperm
    rw [hsplit]
    exact List.Perm.append_left xs (List.perm_append_singleton way ys)
  | false =>
    refine ⟨way :: (xs ++ ys),
      lru_update_stats_false p way row xs ys hget hxs hmod, ?_⟩
    refine List.Perm.trans ?_ hperm
    rw [hsplit]
    exact List.perm_middle.symm

/-- Invariant preservation for a whole sequence of in-range
`update_stats` calls. -/
theorem lruApplyOps_inv :
    ∀ (ops : List (Nat × Nat × Bool)) (p : CachePolicyLRU), p.Inv →
      p.associativity ≤ UINT32_MOD →
      (∀ op ∈ ops, op.1 < p.associativity ∧ op.2.1 < p.stats.length) →
      ∃ p', lruApplyOps p ops = .ok p' ∧ p'.Inv ∧
        p'.associativity = p.associativity ∧ p'.stats.length = p.stats.length := by
  intro ops
  induction ops with
  | nil =>
    intro p hInv _ _
    exact ⟨p, rfl, hInv, rfl, rfl⟩
  | cons op ops ih =>
    obtain ⟨way, row, b⟩ := op
    intro p hInv hassoc hops
    obtain ⟨hway, hrow⟩ := hops (way, row, b) (List.mem_cons_self _ _)
    obtain ⟨rs', hstep, hperm⟩ := lru_update_stats_ok p way row b hInv hassoc hway hrow
    have hInv' : (CachePolicyLRU.mk p.associativity (p.stats.set row rs')).Inv := by
      intro rs hin
      rcases List.mem_or_eq_of_mem_set hin with hin' | rfl
      · exact hInv rs hin'
      · exact hperm
    obtain ⟨p', happ, hInv'', ha, hl⟩ := ih _ hInv' hassoc (by
      intro op hop
      have h := hops op (by simp [hop])
      simpa [List.length_set] using h)
    refine ⟨p', ?_, hInv'', ha, by simpa [List.length_set] using hl⟩
    simp only [lruApplyOps, hstep]
    exact happ

/-! ## Claim theorems -/

/-- C8: the seven runtime fault kinds (UnsupportedInstruction,
UnsupportedAluOperation, Overflow, UnalignedJump, UnknownMemoryControl,
OutOfMemoryAccess, SyscallUnknown) each derive directly from Runtime and
have no children of their own; Input, Runtime and Sanity are sibling
roots deriving directly from the base class, so a Sanity fault is caught
neither by a Runtime handler nor by an Input handler (but is caught by a
base-class handler). -/
theorem exception_taxonomy_roots_and_leaves :
    runtimeLeaves.all (fun k => ExcClass.parent k == some .runtime) = true ∧
    runtimeLeaves.all
      (fun k => allExcClasses.all (fun c => !(ExcClass.parent c == some k))) = true ∧
    (∀ c : ExcClass, c ∈ allExcClasses) ∧
    ExcClass.parent .input = some .base ∧
    ExcClass.parent .runtime = some .base ∧
    ExcClass.parent .sanity = some .base ∧
    ExcClass.isA .sanity .runtime = false ∧
    ExcClass.isA .sanity .input = false ∧
    ExcClass.isA .sanity .base = true := by
  refine ⟨by decide, by decide, fun c => by cases c <;> decide,
    rfl, rfl, rfl, by decide, by decide, by decide⟩

/-- C7: the factory returns no instance for a disabled cache, and for an
enabled cache returns exactly one instance of the variant selected by
the replacement-policy field. -/
theorem factory_variant_selection (config : CacheConfig) (g : Nat) :
    (config.enabled = false →
      (CachePolicy.get_policy_instance config g).1 = none) ∧
    (config.enabled = true → config.replacement_policy = .RP_RAND →
      (CachePolicy.get_policy_instance config g).1 =
        some (.rand (CachePolicyRAND.mk config.associativity))) ∧
    (config.enabled = true → config.replacement_policy = .RP_LRU →
      (CachePolicy.get_policy_instance config g).1 =
        some (.lru (CachePolicyLRU.construct config.associativity config.set_count))) ∧
    (config.enabled = true → config.replacement_policy = .RP_LFU →
      (CachePolicy.get_policy_instance config g).1 =
        some (.lfu (CachePolicyLFU.construct config.associativity config.set_count))) := by
  obtain ⟨e, rp, a, s⟩ := config
  refine ⟨fun he => ?_, fun he hr => ?_, fun he hr => ?_, fun he hr => ?_⟩ <;>
    subst he <;> try subst hr
  all_goals
    simp [CachePolicy.get_policy_instance, CachePolicyRAND.construct]

/-- Witness for C7 at two concrete configurations. -/
theorem factory_variant_selection_witness :
    (CachePolicy.get_policy_instance ⟨false, .RP_LRU, 2, 4⟩ 5).1 = none ∧
    (CachePolicy.get_policy_instance ⟨true, .RP_LFU, 2, 4⟩ 5).1 =
      some (.lfu (CachePolicyLFU.construct 2 4)) :=
  ⟨(factory_variant_selection ⟨false, .RP_LRU, 2, 4⟩ 5).1 rfl,
   (factory_variant_selection ⟨true, .RP_LFU, 2, 4⟩ 5).2.2.2 rfl rfl⟩

/-- C9: immediately after LRU construction, before any `update_stats`
call, `select_way_to_evict` answers `0` on every in-range row. -/
theorem lru_initial_victim_zero (assoc set_count row : Nat)
    (h0 : 0 < assoc) (hrow : row < set_count) :
    (CachePolicyLRU.construct assoc set_count).select_way_to_evict row =
      .ok 0 := by
  have hrow' : (CachePolicyLRU.construct assoc set_count).stats[row]? =
      some ((List.range assoc).map (· % UINT32_MOD)) := by
    simp [CachePolicyLRU.construct, List.getElem?_replicate, hrow]
  refine lru_select_front _ row _ 0 hrow' ?_
  rw [List.getElem?_map, List.getElem?_eq_getElem (by simpa using h0),
    List.getElem_range]
  simp

/-- Witness for C9: a 2-way, 3-row LRU cache evicts way 0 of row 1. -/
theorem lru_initial_victim_zero_witness :
    0 < 2 ∧ 1 < 3 ∧
    (CachePolicyLRU.construct 2 3).select_way_to_evict 1 = .ok 0 :=
  ⟨by decide, by decide, lru_initial_victim_zero 2 3 1 (by decide) (by decide)⟩

/-- C3: on an in-range nonempty row, LFU eviction returns an index `j`
holding a minimal counter; ties resolve to the lowest index, and if any
counter in the row is zero the selected counter is zero (zero beats any
nonzero counter regardless of magnitude). -/
theorem lfu_evicts_lowest_counter (p : CachePolicyLFU) (row : Nat) (rs : List Nat)
    (hrow : p.stats[row]? = some rs) (hne : 0 < rs.length) :
    ∃ j, p.select_way_to_evict row = .ok j ∧ j < rs.length ∧
      (∀ k, k < rs.length → rs.getD j 0 ≤ rs.getD k 0) ∧
      (∀ k, k < rs.length → rs.getD k 0 = rs.getD j 0 → j ≤ k) ∧
      ((∃ k, k < rs.length ∧ rs.getD k 0 = 0) → rs.getD j 0 = 0) := by
  obtain ⟨j, hsel, hj, hmin, htie⟩ := lfu_select_spec p row rs hrow hne
  refine ⟨j, hsel, hj, hmin, htie, ?_⟩
  rintro ⟨k, hk, hz⟩
  have h1 := hmin k hk
  omega

/-- Witness for C3 on the concrete row `[7, 9, 0, 3]`: way 2 (counter 0)
is selected ahead of the nonzero counters. -/
theorem lfu_evicts_lowest_counter_witness :
    ∃ j, (CachePolicyLFU.mk [[7, 9, 0, 3]]).select_way_to_evict 0 = .ok j ∧
      j < ([7, 9, 0, 3] : List Nat).length ∧
      (∀ k, k < ([7, 9, 0, 3] : List Nat).length →
        ([7, 9, 0, 3] : List Nat).getD j 0 ≤ ([7, 9, 0, 3] : List Nat).getD k 0) ∧
      (∀ k, k < ([7, 9, 0, 3] : List Nat).length →
        ([7, 9, 0, 3] : List Nat).getD k 0 = ([7, 9, 0, 3] : List Nat).getD j 0 →
        j ≤ k) ∧
      ((∃ k, k < ([7, 9, 0, 3] : List Nat).length ∧
        ([7, 9, 0, 3] : List Nat).getD k 0 = 0) →
        ([7, 9, 0, 3] : List Nat).getD j 0 = 0) :=
  lfu_evicts_lowest_counter (CachePolicyLFU.mk [[7, 9, 0, 3]]) 0 [7, 9, 0, 3]
    rfl (by decide)

/-- C5: an in-range LFU invalidation `update_stats(w, r, false)` resets
the counter of way `w` in row `r` to 0, and the next
`select_way_to_evict(r)` returns `w` exactly when no way of lower index
in that row also has a zero counter. -/
theorem lfu_invalidate_resets_and_evicts (p : CachePolicyLFU) (way row : Nat)
    (rs : List Nat) (hrow : p.stats[row]? = some rs) (hway : way < rs.length) :
    ∃ p', p.update_stats way row false = .ok p' ∧
      p'.stats[row]? = some (rs.set way 0) ∧
      (p'.select_way_to_evict row = .ok way ↔
        ∀ j, j < way → rs.getD j 0 ≠ 0) := by
  have hrl : row < p.stats.length := (List.getElem?_eq_some.mp hrow).1
  have hupd : p.update_stats way row false =
      .ok ⟨p.stats.set row (rs.set way 0)⟩ := by
    simp only [CachePolicyLFU.update_stats, hrow,
      List.getElem?_eq_getElem hway]
    simp
  refine ⟨_, hupd, ?_, ?_⟩
  · simp only [List.getElem?_set_self (by simpa using hrl)]
  · have hrow' : (CachePolicyLFU.mk (p.stats.set row (rs.set way 0))).stats[row]? =
        some (rs.set way 0) := by
      simp only [List.getElem?_set_self (by simpa using hrl)]
    have hlen' : 0 < (rs.set way 0).length := by
      simp
      omega
    obtain ⟨j, hsel, hj, hmin, htie⟩ :=
      lfu_select_spec _ row (rs.set way 0) hrow' hlen'
    have hway' : way < (rs.set way 0).length := by
      simpa using hway
    have hgw : (rs.set way 0).getD way 0 = 0 := by
      rw [List.getD_eq_getElem?_getD, List.getElem?_set_self (by simpa using hway)]
      rfl
    have hj0 : (rs.set way 0).getD j 0 = 0 := by
      have h1 := hmin way hway'
      omega
    have hjle : j ≤ way := htie way hway' (by omega)
    rw [hsel]
    constructor
    · intro heq j' hj' hz
      have hje : j = way := by
        have := Except.ok.inj heq
        omega
      have hz' : (rs.set way 0).getD j' 0 = 0 := by
        rw [List.getD_eq_getElem?_getD, List.getElem?_set_ne (by omega),
          ← List.getD_eq_getElem?_getD]
        exact hz
      have := htie j' (by omega) (by omega)
      omega
    · intro hz
      have hje : j = way := by
        rcases Nat.lt_or_ge j way with hlt | hge
        · exfalso
          have he : (rs.set way 0).getD j 0 = rs.getD j 0 := by
            rw [List.getD_eq_getElem?_getD, List.getElem?_set_ne (by omega),
              ← List.getD_eq_getElem?_getD]
          exact hz j hlt (by omega)
        · omega
      rw [hje]

/-- Witness for C5 with row `[3, 5]`, invalidating way 1: its counter
becomes 0 and it becomes the victim since way 0 has counter 3. -/
theorem lfu_invalidate_resets_and_evicts_witness :
    ∃ p', (CachePolicyLFU.mk [[3, 5]]).update_stats 1 0 false = .ok p' ∧
      p'.stats[0]? = some (([3, 5] : List Nat).set 1 0) ∧
      (p'.select_way_to_evict 0 = .ok 1 ↔
        ∀ j, j < 1 → ([3, 5] : List Nat).getD j 0 ≠ 0) :=
  lfu_invalidate_resets_and_evicts (CachePolicyLFU.mk [[3, 5]]) 1 0 [3, 5]
    rfl (by decide)

/-- C10: an in-range LFU hit increments the way's `uint32_t` counter
modulo `2^32`; in particular a counter at `2^32 - 1` wraps to 0, after
which eviction on that row selects a way whose counter is 0 (the wrapped
way is treated as invalid/never-used and takes priority over every way
with a nonzero counter). -/
theorem lfu_counter_wraparound (p : CachePolicyLFU) (way row : Nat)
    (rs : List Nat) (c : Nat) (hrow : p.stats[row]? = some rs)
    (hc : rs[way]? = some c) :
    p.update_stats way row true =
      .ok ⟨p.stats.set row (rs.set way ((c + 1) % UINT32_MOD))⟩ ∧
    (c = UINT32_MOD - 1 →
      ∃ p', p.update_stats way row true = .ok p' ∧
        p'.stats[row]? = some (rs.set way 0) ∧
        ∃ j, p'.select_way_to_evict row = .ok j ∧
          (rs.set way 0).getD j 0 = 0) := by
  have hrl : row < p.stats.length := (List.getElem?_eq_some.mp hrow).1
  have hway : way < rs.length := (List.getElem?_eq_some.mp hc).1
  have hupd : p.update_stats way row true =
      .ok ⟨p.stats.set row (rs.set way ((c + 1) % UINT32_MOD))⟩ := by
    simp only [CachePolicyLFU.update_stats, hrow, hc, if_pos trivial]
  refine ⟨hupd, fun hcmax => ?_⟩
  have hwrap : (c + 1) % UINT32_MOD = 0 := by
    rw [hcmax]
    have : UINT32_MOD - 1 + 1 = UINT32_MOD := by
      have : 0 < UINT32_MOD := by decide
      omega
    rw [this, Nat.mod_self]
  rw [hwrap] at hupd
  refine ⟨_, hupd, ?_, ?_⟩
  · simp only [List.getElem?_set_self (by simpa using hrl)]
  · have hrow' : (CachePolicyLFU.mk (p.stats.set row (rs.set way 0))).stats[row]? =
        some (rs.set way 0) := by
      simp only [List.getElem?_set_self (by simpa using hrl)]
    have hlen' : 0 < (rs.set way 0).length := by
      simp
      omega
    obtain ⟨j, hsel, hj, hmin, htie⟩ :=
      lfu_select_spec _ row (rs.set way 0) hrow' hlen'
    have hgw : (rs.set way 0).getD way 0 = 0 := by
      rw [List.getD_eq_getElem?_getD, List.getElem?_set_self (by simpa using hway)]
      rfl
    have h1 := hmin way (by simpa using hway)
    exact ⟨j, hsel, by omega⟩

/-- Witness for C10: a row whose way-0 counter sits at `2^32 - 1` wraps
to 0 on a hit and way 0 becomes the victim over the counter-7 way. -/
theorem lfu_counter_wraparound_witness :
    (CachePolicyLFU.mk [[4294967295, 7]]).update_stats 0 0 true =
      .ok ⟨[[4294967295, 7]].set 0 (([4294967295, 7] : List Nat).set 0
        ((4294967295 + 1) % UINT32_MOD))⟩ ∧
    (4294967295 = UINT32_MOD - 1 →
      ∃ p', (CachePolicyLFU.mk [[4294967295, 7]]).update_stats 0 0 true = .ok p' ∧
        p'.stats[0]? = some (([4294967295, 7] : List Nat).set 0 0) ∧
        ∃ j, p'.select_way_to_evict 0 = .ok j ∧
          (([4294967295, 7] : List Nat).set 0 0).getD j 0 = 0) :=
  lfu_counter_wraparound (CachePolicyLFU.mk [[4294967295, 7]]) 0 0
    [4294967295, 7] 4294967295 rfl rfl

/-- C6: `CachePolicyRAND.update_stats` is a no-op, every eviction draw
is in `[0, associativity)`, and two fresh Random policies built with the
same associativity produce identical eviction sequences on identical
call sequences, whatever the prior generator states were, because
construction re-seeds the process-wide generator with the constant 1. -/
theorem rand_reproducible_evictions (rand : Nat → Nat × Nat) (assoc : Nat)
    (g1 g2 : Nat) (rows : List Nat) (h0 : 0 < assoc) :
    randEvictSeq rand (CachePolicyRAND.construct assoc g1).1
        (CachePolicyRAND.construct assoc g1).2 rows =
      randEvictSeq rand (CachePolicyRAND.construct assoc g2).1
        (CachePolicyRAND.construct assoc g2).2 rows ∧
    (∀ v ∈ randEvictSeq rand (CachePolicyRAND.construct assoc g1).1
        (CachePolicyRAND.construct assoc g1).2 rows, v < assoc) ∧
    (∀ (p : CachePolicyRAND) (way row : Nat) (b : Bool) (g : Nat),
      p.update_stats way row b g = .ok g) := by
  refine ⟨rfl, ?_, fun _ _ _ _ _ => rfl⟩
  have hall : ∀ (rows : List Nat) (g : Nat) (v : Nat),
      v ∈ randEvictSeq rand (CachePolicyRAND.mk assoc) g rows → v < assoc := by
    intro rows
    induction rows with
    | nil =>
      intro g v hv
      simp [randEvictSeq] at hv
    | cons r rows ih =>
      intro g v hv
      simp only [randEvictSeq, CachePolicyRAND.select_way_to_evict,
        List.mem_cons] at hv
      rcases hv with rfl | hv
      · exact Nat.mod_lt _ h0
      · exact ih _ v hv
  exact fun v hv => hall rows 1 v hv

/-- Witness for C6 with a concrete linear-congruential `rand`,
associativity 3 and different prior generator states. -/
theorem rand_reproducible_evictions_witness :
    randEvictSeq (fun s => (s * 1103515245 + 12345, s * 1103515245 + 12345))
        (CachePolicyRAND.construct 3 42).1
        (CachePolicyRAND.construct 3 42).2 [0, 1, 0] =
      randEvictSeq (fun s => (s * 1103515245 + 12345, s * 1103515245 + 12345))
        (CachePolicyRAND.construct 3 7).1
        (CachePolicyRAND.construct 3 7).2 [0, 1, 0] ∧
    (∀ v ∈ randEvictSeq (fun s => (s * 1103515245 + 12345, s * 1103515245 + 12345))
        (CachePolicyRAND.construct 3 42).1
        (CachePolicyRAND.construct 3 42).2 [0, 1, 0], v < 3) ∧
    (∀ (p : CachePolicyRAND) (way row : Nat) (b : Bool) (g : Nat),
      p.update_stats way row b g = .ok g) :=
  rand_reproducible_evictions
    (fun s => (s * 1103515245 + 12345, s * 1103515245 + 12345)) 3 42 7 [0, 1, 0]
    (by decide)

/-- C2: every row of a freshly constructed LRU policy is a permutation
of `[0, associativity)`, and this remains true after any sequence of
in-range `update_stats` calls (every call in the sequence succeeds). The
bound `associativity ≤ 2^32` reflects the `uint32_t` row cells and holds
for every configuration expressible in the cache configuration's
unsigned 32-bit fields. -/
theorem lru_permutation_invariant (assoc set_count : Nat)
    (ops : List (Nat × Nat × Bool)) (hassoc : assoc ≤ UINT32_MOD)
    (hops : ∀ op ∈ ops, op.1 < assoc ∧ op.2.1 < set_count) :
    (∀ rs ∈ (CachePolicyLRU.construct assoc set_count).stats,
      rs.Perm (List.range assoc)) ∧
    ∃ p', lruApplyOps (CachePolicyLRU.construct assoc set_count) ops = .ok p' ∧
      ∀ rs ∈ p'.stats, rs.Perm (List.range assoc) := by
  have hinit : (CachePolicyLRU.construct assoc set_count).Inv := by
    intro rs hin
    simp only [CachePolicyLRU.construct, range_map_mod assoc hassoc] at hin
    rw [List.eq_of_mem_replicate hin]
    exact List.Perm.refl _
  refine ⟨hinit, ?_⟩
  obtain ⟨p', happ, hInv', ha, _⟩ := lruApplyOps_inv ops
    (CachePolicyLRU.construct assoc set_count) hinit hassoc (by
      intro op hop
      have h := hops op hop
      simpa [CachePolicyLRU.construct] using h)
  refine ⟨p', happ, fun rs hin => ?_⟩
  have := hInv' rs hin
  rwa [ha] at this

/-- Witness for C2: a 2-way, 2-row cache across a hit, an invalidation
and another hit. -/
theorem lru_permutation_invariant_witness :
    (∀ rs ∈ (CachePolicyLRU.construct 2 2).stats, rs.Perm (List.range 2)) ∧
    ∃ p', lruApplyOps (CachePolicyLRU.construct 2 2)
        [(0, 0, true), (1, 0, false), (1, 1, true)] = .ok p' ∧
      ∀ rs ∈ p'.stats, rs.Perm (List.range 2) :=
  lru_permutation_invariant 2 2 [(0, 0, true), (1, 0, false), (1, 1, true)]
    (by decide) (by decide)

/-- C4: an in-range LRU hit `update_stats(w, r, true)` splits row `r`
around the unique occurrence of `w`, moves `w` to the back, shifts the
elements that followed it down by one (everything before `w` and the
relative order of all other ways unchanged — the row becomes
`xs ++ ys ++ [w]`), leaves every other row untouched, and afterwards
`select_way_to_evict(r)` does not answer `w` unless associativity is 1. -/
theorem lru_hit_moves_way_to_back (p : CachePolicyLRU) (way row : Nat)
    (rs : List Nat) (hInv : p.Inv) (hassoc : p.associativity ≤ UINT32_MOD)
    (hway : way < p.associativity) (hrow : p.stats[row]? = some rs) :
    ∃ xs ys p', rs = xs ++ way :: ys ∧ way ∉ xs ∧ way ∉ ys ∧
      p.update_stats way row true = .ok p' ∧
      p'.stats[row]? = some (xs ++ ys ++ [way]) ∧
      (∀ r : Nat, r ≠ row → p'.stats[r]? = p.stats[r]?) ∧
      (1 < p.associativity →
        ∀ v, p'.select_way_to_evict row = .ok v → v ≠ way) := by
  have hrl : row < p.stats.length := (List.getElem?_eq_some.mp hrow).1
  have hperm : rs.Perm (List.range p.associativity) :=
    hInv rs (List.getElem?_mem hrow)
  obtain ⟨xs, ys, hsplit, hxs, hys⟩ := perm_decomp rs _ way hperm hway
  have hmod : way < UINT32_MOD := lt_of_lt_of_le hway hassoc
  have hlen : xs.length + ys.length + 1 = p.associativity := by
    have h1 := hperm.length_eq
    rw [hsplit] at h1
    simp at h1
    omega
  have hupd := lru_update_stats_true p way row xs ys (hsplit ▸ hrow) hys hlen hmod
  refine ⟨xs, ys, _, hsplit, hxs, hys, hupd, ?_, ?_, ?_⟩
  · rw [List.getElem?_set_self (by simpa using hrl)]
    simp
  · intro r hr
    exact List.getElem?_set_ne (fun he => hr he.symm)
  · intro h1 v hsel
    have hxy : 0 < (xs ++ ys).length := by
      simp
      omega
    have hrow' : (CachePolicyLRU.mk p.associativity
        (p.stats.set row (xs ++ (ys ++ [way])))).stats[row]? =
        some (xs ++ (ys ++ [way])) := by
      rw [List.getElem?_set_self (by simpa using hrl)]
    cases hxyc : xs ++ ys with
    | nil =>
      rw [hxyc] at hxy
      simp at hxy
    | cons h t =>
      have hform : xs ++ (ys ++ [way]) = h :: (t ++ [way]) := by
        rw [← List.append_assoc, hxyc]
        simp
      have hsel2 : (CachePolicyLRU.mk p.associativity
          (p.stats.set row (xs ++ (ys ++ [way])))).select_way_to_evict row =
          .ok h :=
        lru_select_front _ row _ h hrow' (by rw [hform]; simp)
      rw [hsel2] at hsel
      have hvh : v = h := (Except.ok.inj hsel).symm
      have hmem : h ∈ xs ++ ys := by
        rw [hxyc]
        simp
      intro hvw
      rw [hvh] at hvw
      rw [hvw] at hmem
      rcases List.mem_append.mp hmem with hm | hm
      · exact hxs hm
      · exact hys hm

/-- Witness for C4: a 3-way LRU row `[0, 1, 2]`, hit on way 1. -/
theorem lru_hit_moves_way_to_back_witness :
    ∃ xs ys p', ([0, 1, 2] : List Nat) = xs ++ 1 :: ys ∧ 1 ∉ xs ∧ 1 ∉ ys ∧
      (CachePolicyLRU.construct 3 1).update_stats 1 0 true = .ok p' ∧
      p'.stats[0]? = some (xs ++ ys ++ [1]) ∧
      (∀ r : Nat, r ≠ 0 → p'.stats[r]? = (CachePolicyLRU.construct 3 1).stats[r]?) ∧
      (1 < (CachePolicyLRU.construct 3 1).associativity →
        ∀ v, p'.select_way_to_evict 0 = .ok v → v ≠ 1) :=
  lru_hit_moves_way_to_back (CachePolicyLRU.construct 3 1) 1 0 [0, 1, 2]
    (by decide) (by decide) (by decide) (by decide)

/-- C1 counterexample: out-of-range arguments do not always raise a
Sanity fault. For the Random policy an out-of-range `update_stats` is
silently ignored (no fault at all, the generator state is returned
unchanged) and `select_way_to_evict` ignores `row` entirely; for the LRU
policy an out-of-range `select_way_to_evict` and for the LFU policy an
out-of-range `update_stats` escape as plain `std::out_of_range`, not as
a Sanity-kind fault. -/
theorem sanity_fault_claim_counterexample :
    (CachePolicyRAND.mk 2).update_stats 5 9 true 3 = .ok 3 ∧
    (CachePolicyLRU.construct 2 1).select_way_to_evict 7 =
      .error .stdOutOfRange ∧
    (CachePolicyLRU.construct 2 1).select_way_to_evict 7 ≠
      Except.error ThrownFault.sanity ∧
    (CachePolicyLFU.construct 2 1).update_stats 5 0 true =
      .error .stdOutOfRange ∧
    (CachePolicyLFU.construct 2 1).update_stats 5 0 true ≠
      Except.error ThrownFault.sanity := by
  refine ⟨rfl, ?_, ?_, ?_, ?_⟩ <;> decide

/-- C1 as amended: out-of-range `row`/`way` raises a Sanity fault
exactly in `CachePolicyLRU::update_stats` (whose whole body is wrapped
in the converting try/catch) and in `CachePolicyLFU::select_way_to_evict`;
`CachePolicyLRU::select_way_to_evict` and `CachePolicyLFU::update_stats`
let the plain `std::out_of_range` escape instead, and `CachePolicyRAND`
never faults: its `update_stats` is a no-op and its
`select_way_to_evict` ignores `row`. -/
theorem fault_classification_amended :
    (∀ (p : CachePolicyLRU) (way row : Nat) (b : Bool),
      p.stats[row]? = none → p.update_stats way row b = .error .sanity) ∧
    (∀ (p : CachePolicyLRU) (way row : Nat) (b : Bool) (rs : List Nat),
      p.stats[row]? = some rs → way ∉ rs →
      p.update_stats way row b = .error .sanity) ∧
    (∀ (p : CachePolicyLRU) (row : Nat), p.stats[row]? = none →
      p.select_way_to_evict row = .error .stdOutOfRange) ∧
    (∀ (p : CachePolicyLFU) (way row : Nat) (b : Bool),
      p.stats[row]? = none →
      p.update_stats way row b = .error .stdOutOfRange) ∧
    (∀ (p : CachePolicyLFU) (way row : Nat) (b : Bool) (rs : List Nat),
      p.stats[row]? = some rs → rs.length ≤ way →
      p.update_stats way row b = .error .stdOutOfRange) ∧
    (∀ (p : CachePolicyLFU) (row : Nat), p.stats[row]? = none →
      p.select_way_to_evict row = .error .sanity) ∧
    (∀ (p : CachePolicyRAND) (way row : Nat) (b : Bool) (g : Nat),
      p.update_stats way row b g = .ok g) ∧
    (∀ (rand : Nat → Nat × Nat) (p : CachePolicyRAND) (row row' g : Nat),
      p.select_way_to_evict rand row g = p.select_way_to_evict rand row' g) := by
  refine ⟨?_, ?_, ?_, ?_, ?_, ?_, fun _ _ _ _ _ => rfl, fun _ _ _ _ _ => rfl⟩
  · exact fun p way row b hrow => lru_update_stats_row_oor p way row b hrow
  · exact fun p way row b rs hrow hmem =>
      lru_update_stats_way_missing p way row b rs hrow hmem
  · exact fun p row hrow => lru_select_row_oor p row hrow
  · intro p way row b hrow
    simp only [CachePolicyLFU.update_stats, hrow]
  · intro p way row b rs hrow hway
    simp only [CachePolicyLFU.update_stats, hrow, List.getElem?_eq_none hway]
  · intro p row hrow
    simp only [CachePolicyLFU.select_way_to_evict, hrow]

/-- Witness for the amended C1 at concrete out-of-range calls. -/
theorem fault_classification_amended_witness :
    (CachePolicyLRU.construct 2 1).update_stats 0 5 true = .error .sanity ∧
    (CachePolicyLRU.construct 2 1).update_stats 9 0 false = .error .sanity ∧
    (CachePolicyLFU.construct 2 1).update_stats 9 0 true =
      .error .stdOutOfRange ∧
    (CachePolicyLFU.construct 2 1).select_way_to_evict 5 = .error .sanity :=
  ⟨fault_classification_amended.1 (CachePolicyLRU.construct 2 1) 0 5 true
      (by decide),
   fault_classification_amended.2.1 (CachePolicyLRU.construct 2 1) 9 0 false
      [0, 1] (by decide) (by decide),
   fault_classification_amended.2.2.2.2.1 (CachePolicyLFU.construct 2 1) 9 0
      true [0, 0] (by decide) (by decide),
   fault_classification_amended.2.2.2.2.2.1 (CachePolicyLFU.construct 2 1) 5
      (by decide)⟩

end QtMips
